import Mathlib

/-
  Shallow embedding of the replicache client sources:
    src/sync/src/App.tsx        (WebSocketManager, handleMessage, addUser/editUser/deleteUser)
    src/frontend/src/local_sync.ts  (LocalStorageWithIndex)
  together with theorems settling the frozen claims about them.
-/

namespace Replicache

/-- JavaScript runtime values that appear in the sync payloads. -/
inductive JsValue : Type
  | str (s : String)
  | num (n : Int)
  | bool (b : Bool)
deriving DecidableEq, Repr

/-- A user record as held in the local mapping.  Each field is optional because
JS objects built by spreads (for example an edit merged into a missing base)
may lack any of them. -/
structure UserObj : Type where
  name : Option JsValue
  age : Option JsValue
  email : Option JsValue
  is_deleted : Option JsValue
deriving DecidableEq, Repr

/-- The typed `User` payload carried in an add message (interface User). -/
structure UserData : Type where
  name : String
  age : Int
  email : String
deriving DecidableEq, Repr

/-- Message discriminator, the type field of WebSocketMessage. -/
inductive MsgType : Type
  | add
  | edit
  | delete
deriving DecidableEq, Repr

/-- A key of the User interface, the field argument of editUser (keyof User). -/
inductive UserField : Type
  | name
  | age
  | email
deriving DecidableEq, Repr

/-- A row_changes payload: a partial update over the user object fields. -/
structure RowChanges : Type where
  name : Option JsValue
  age : Option JsValue
  email : Option JsValue
  is_deleted : Option JsValue
deriving DecidableEq, Repr

/-- The application-level message shape shared by both directions
(WebSocketMessage plus the legacy field/value edit pair sent by editUser). -/
structure AppMessage : Type where
  type : MsgType
  key : String
  data : Option UserData
  row_changes : Option RowChanges
  field : Option UserField
  value : Option JsValue
deriving DecidableEq, Repr

/-- A wire message after send has stamped it with version, clientId and time. -/
structure WireMessage : Type where
  payload : AppMessage
  version : Int
  clientId : String
  time : String
deriving DecidableEq, Repr

/-- The empty JS object, the base of a spread onto an undefined entry. -/
def UserObj.empty : UserObj := ⟨none, none, none, none⟩

/-- One field of an object spread: the update wins where it is present. -/
def overrideField (base upd : Option JsValue) : Option JsValue :=
  match upd with
  | some v => some v
  | none => base

/-- JS object spread of a row_changes record onto a user object. -/
def UserObj.mergeRow (u : UserObj) (rc : RowChanges) : UserObj :=
  ⟨overrideField u.name rc.name, overrideField u.age rc.age,
   overrideField u.email rc.email, overrideField u.is_deleted rc.is_deleted⟩

/-- Spread of a User payload with is_deleted set to false, as in the add
branches of handleMessage and addUser. -/
def UserData.toObj (d : UserData) : UserObj :=
  ⟨some (.str d.name), some (.num d.age), some (.str d.email), some (.bool false)⟩

/-- Single-field assignment used by the optimistic step of editUser. -/
def UserObj.setField (u : UserObj) (f : UserField) (v : JsValue) : UserObj :=
  match f with
  | .name => ⟨some v, u.age, u.email, u.is_deleted⟩
  | .age => ⟨u.name, some v, u.email, u.is_deleted⟩
  | .email => ⟨u.name, u.age, some v, u.is_deleted⟩

/-- The local entity mapping Record of string to UserWithSync. -/
def UsersMap : Type := String → Option UserObj

def UsersMap.empty : UsersMap := fun _ => none

def UsersMap.insert (m : UsersMap) (k : String) (v : UserObj) : UsersMap :=
  fun q => if q = k then some v else m q

def UsersMap.remove (m : UsersMap) (k : String) : UsersMap :=
  fun q => if q = k then none else m q

/-- The base object of the edit spread: prev at key, or undefined (empty). -/
def UsersMap.getObj (m : UsersMap) (k : String) : UserObj :=
  (m k).getD UserObj.empty

/-- The inbound reconciliation switch of handleMessage in src/sync/src/App.tsx:
add overwrites when data is present, edit shallow-merges when row_changes is
present, delete removes the key. -/
def handleMessage (msg : AppMessage) (users : UsersMap) : UsersMap :=
  match msg.type with
  | .add =>
    match msg.data with
    | some d => users.insert msg.key d.toObj
    | none => users
  | .edit =>
    match msg.row_changes with
    | some rc => users.insert msg.key ((users.getObj msg.key).mergeRow rc)
    | none => users
  | .delete => users.remove msg.key

/-- The WhiteSpace and LineTerminator characters removed by JS String.trim. -/
def isJsWhitespace (c : Char) : Bool :=
  c = ' ' || c = '\t' || c = '\n' || c = '\r' || c = '\x0b' || c = '\x0c' ||
  c = '\u00a0' || c = '\u1680' || c = '\u2000' || c = '\u2001' || c = '\u2002' ||
  c = '\u2003' || c = '\u2004' || c = '\u2005' || c = '\u2006' || c = '\u2007' ||
  c = '\u2008' || c = '\u2009' || c = '\u200a' || c = '\u2028' || c = '\u2029' ||
  c = '\u202f' || c = '\u205f' || c = '\u3000' || c = '\ufeff'

/-- JS String.trim: strip leading and trailing whitespace. -/
def jsTrim (s : String) : String :=
  ⟨(((s.data.dropWhile isJsWhitespace).reverse.dropWhile isJsWhitespace)).reverse⟩

/-- Whether a string has a leading or a trailing JS whitespace character. -/
def hasEdgeWhitespace (s : String) : Bool :=
  (match s.data.head? with
   | some c => isJsWhitespace c
   | none => false) ||
  (match s.data.getLast? with
   | some c => isJsWhitespace c
   | none => false)

/-- The three mutation intents of the sync component. -/
inductive SyncOp : Type
  | addEntity (name : String) (age : Int) (email : String)
  | editEntity (key : String) (f : UserField) (v : JsValue)
  | deleteEntity (key : String)
deriving DecidableEq, Repr

def SyncOp.isEdit : SyncOp → Bool
  | .editEntity _ _ _ => true
  | _ => false

/-- The optimistic local mutation performed by addUser / editUser / deleteUser
before sending.  addUser trims name and email inside the stored record but
keys the entry by the untrimmed name argument. -/
def applyOptimistic : SyncOp → UsersMap → UsersMap
  | .addEntity name age email, m =>
      m.insert name (UserData.toObj ⟨jsTrim name, age, jsTrim email⟩)
  | .editEntity key f v, m =>
      m.insert key ((m.getObj key).setField f v)
  | .deleteEntity key, m => m.remove key

/-- The outbound message each intent hands to WebSocketManager.send.  Note the
edit intent carries the legacy field/value pair and no row_changes. -/
def outboundOf : SyncOp → AppMessage
  | .addEntity name age email =>
      ⟨.add, name, some ⟨jsTrim name, age, jsTrim email⟩, none, none, none⟩
  | .editEntity key f v =>
      ⟨.edit, key, none, none, some f, some v⟩
  | .deleteEntity key =>
      ⟨.delete, key, none, none, none, none⟩

/-- Run a sequence of intents where each optimistic step is applied and the
verbatim echo of its outbound message is then reconciled. -/
def runWithOptimistic (ops : List SyncOp) (m : UsersMap) : UsersMap :=
  ops.foldl (fun acc op => handleMessage (outboundOf op) (applyOptimistic op acc)) m

/-- Run the same sequence with the optimistic steps skipped: only the echoed
confirmations are reconciled. -/
def runConfirmOnly (ops : List SyncOp) (m : UsersMap) : UsersMap :=
  ops.foldl (fun acc op => handleMessage (outboundOf op) acc) m

/-- The mutable state of a WebSocketManager instance.  socketPresent models
the socket field being non-null, socketOpen models readyState being OPEN,
callbackSet models onMessageCallback being non-null, and
pendingReconnectDelays records the delay of every reconnection timer that
has been handed to setTimeout. -/
structure WSManager : Type where
  socketPresent : Bool
  socketOpen : Bool
  clientId : String
  clientVersion : Int
  reconnectAttempts : Nat
  maxReconnectAttempts : Nat
  callbackSet : Bool
  pendingReconnectDelays : List Nat
deriving DecidableEq, Repr

/-- new WebSocketManager(clientId). -/
def WSManager.init (clientId : String) : WSManager :=
  ⟨false, false, clientId, 0, 0, 5, false, []⟩

/-- connect(onMessage): registers the callback and creates a fresh, not yet
open socket. -/
def WSManager.connect (s : WSManager) : WSManager :=
  { s with callbackSet := true, socketPresent := true, socketOpen := false }

/-- The onopen handler: the socket is live and reconnectAttempts is reset. -/
def WSManager.onopen (s : WSManager) : WSManager :=
  { s with socketOpen := true, reconnectAttempts := 0 }

/-- The onmessage handler's effect on the manager itself: clientVersion is
assigned the version field of the inbound message. -/
def WSManager.onmessage (s : WSManager) (msg : WireMessage) : WSManager :=
  { s with clientVersion := msg.version }

/-- attemptReconnect: when attempts remain, increment the counter and hand a
timer with delay 2000 times the incremented counter to setTimeout; otherwise
do nothing. -/
def WSManager.attemptReconnect (s : WSManager) : WSManager :=
  if s.reconnectAttempts < s.maxReconnectAttempts then
    { s with reconnectAttempts := s.reconnectAttempts + 1,
             pendingReconnectDelays :=
               s.pendingReconnectDelays ++ [2000 * (s.reconnectAttempts + 1)] }
  else s

/-- The onclose handler: the socket is no longer open and attemptReconnect
runs. -/
def WSManager.oncloseEvent (s : WSManager) : WSManager :=
  WSManager.attemptReconnect { s with socketOpen := false }

/-- disconnect(): close and null the socket if present; nothing else. -/
def WSManager.disconnect (s : WSManager) : WSManager :=
  if s.socketPresent then { s with socketPresent := false, socketOpen := false } else s

/-- Result of a send call: the manager state afterwards, the wire message
handed to the transport when one was, and whether the not-connected branch
logged its error to the console. -/
structure SendResult : Type where
  state : WSManager
  transmitted : Option WireMessage
  errorLogged : Bool
deriving DecidableEq, Repr

/-- send(message): when the socket exists and is OPEN, stamp the message with
clientVersion, clientId and the current time and transmit it; otherwise log
an error, transmit nothing and leave every field of the manager unchanged. -/
def WSManager.send (s : WSManager) (message : AppMessage) (now : String) : SendResult :=
  if s.socketPresent && s.socketOpen then
    ⟨s, some ⟨message, s.clientVersion, s.clientId, now⟩, false⟩
  else
    ⟨s, none, true⟩

/-- Process a list of inbound messages through the onmessage handler. -/
def WSManager.processInbound (s : WSManager) (msgs : List WireMessage) : WSManager :=
  msgs.foldl WSManager.onmessage s

/-- What a localStorage slot can hold in this development: the serialized
index array of a LocalStorageWithIndex, or a serialized cached value.  JSON
serialization is injective on this domain, so the stored text is modeled by
the value itself. -/
inductive Stored (α : Type) : Type
  | arr (l : List String)
  | val (v : α)
deriving DecidableEq, Repr

/-- The localStorage key space. -/
def Storage (α : Type) : Type := String → Option (Stored α)

def Storage.empty (α : Type) : Storage α := fun _ => none

/-- localStorage.setItem / removeItem as one update primitive. -/
def Storage.update {α : Type} (s : Storage α) (k : String) (v : Option (Stored α)) :
    Storage α :=
  fun q => if q = k then v else s q

namespace LocalStorageWithIndex

variable {α : Type}

/-- The side-table key holding the index of a given instance. -/
def indexKey (pfx : String) : String := "__index__:" ++ pfx

/-- The composite storage key of an id. -/
def fullKey (pfx id : String) : String := pfx ++ "-" ++ id

/-- getIndex: parse the stored index array, or the empty array when the slot
is empty.  A cached value sitting under the index key is unreachable as long
as no fullKey collides with the index key (proved below for the prefixes the
code instantiates), so that branch also yields the empty array. -/
def getIndex (pfx : String) (s : Storage α) : List String :=
  match s (indexKey pfx) with
  | some (.arr l) => l
  | some (.val _) => []
  | none => []

/-- setIndex: serialize the given list into the index slot. -/
def setIndex (pfx : String) (l : List String) (s : Storage α) : Storage α :=
  s.update (indexKey pfx) (some (.arr l))

/-- Building a JS Set from an array and converting back: first-occurrence
de-duplication preserving order. -/
def jsSetOfList (l : List String) : List String :=
  l.foldl (fun acc x => if x ∈ acc then acc else acc ++ [x]) []

/-- setItem(id, value): store the value under the composite key, then add the
composite key to the index set. -/
def setItem (pfx id : String) (v : α) (s : Storage α) : Storage α :=
  let fk := fullKey pfx id
  let s1 := s.update fk (some (.val v))
  let index := jsSetOfList (getIndex pfx s1)
  let index2 := if fk ∈ index then index else index ++ [fk]
  setIndex pfx index2 s1

/-- getItem(id): the stored value, or null. -/
def getItem (pfx id : String) (s : Storage α) : Option α :=
  match s (fullKey pfx id) with
  | some (.val v) => some v
  | _ => none

/-- The loop body of getAllItems: keep the key when its slot still resolves
to a value, otherwise skip it silently. -/
def collectStep (s : Storage α) (items : List (String × α)) (k : String) :
    List (String × α) :=
  match s k with
  | some (.val v) => items ++ [(k, v)]
  | _ => items

/-- getAllItems(): walk the index and collect every key whose slot still
resolves to a value, in index order. -/
def getAllItems (pfx : String) (s : Storage α) : List (String × α) :=
  (getIndex pfx s).foldl (collectStep s) []

/-- removeItem(id): delete the value slot, then delete the composite key from
the index set. -/
def removeItem (pfx id : String) (s : Storage α) : Storage α :=
  let fk := fullKey pfx id
  let s1 := s.update fk none
  let index := (jsSetOfList (getIndex pfx s1)).erase fk
  setIndex pfx index s1

/-- clearAll(): delete every indexed slot, then the index slot itself. -/
def clearAll (pfx : String) (s : Storage α) : Storage α :=
  let index := getIndex pfx s
  let s1 := index.foldl (fun acc k => acc.update k none) s
  s1.update (indexKey pfx) none

/-- Association-list lookup used to read the object getAllItems returns. -/
def lookupAL (l : List (String × α)) (k : String) : Option α :=
  match l with
  | [] => none
  | (a, v) :: rest => if k = a then some v else lookupAL rest k

/-- The calls a client may make against one LocalStorageWithIndex instance. -/
inductive CacheOp (α : Type) : Type
  | set (id : String) (v : α)
  | remove (id : String)

/-- Run a sequence of setItem / removeItem calls. -/
def runCache (pfx : String) (ops : List (CacheOp α)) (s : Storage α) : Storage α :=
  ops.foldl (fun acc op =>
    match op with
    | .set id v => setItem pfx id v acc
    | .remove id => removeItem pfx id acc) s

/-- The value most recently set for an id and not removed since, read off the
call sequence itself. -/
def lastVal (ops : List (CacheOp α)) (id : String) : Option α :=
  ops.foldl (fun acc op =>
    match op with
    | .set j v => if j = id then some v else acc
    | .remove j => if j = id then none else acc) none

end LocalStorageWithIndex

/-! Lemmas about the local entity mapping. -/

theorem UsersMap.insert_insert_self (m : UsersMap) (k : String) (v : UserObj) :
    (m.insert k v).insert k v = m.insert k v := by
  funext q
  unfold UsersMap.insert
  by_cases hq : q = k <;> simp [hq]

theorem UsersMap.remove_remove_self (m : UsersMap) (k : String) :
    (m.remove k).remove k = m.remove k := by
  funext q
  unfold UsersMap.remove
  by_cases hq : q = k <;> simp [hq]

/-- Reconciling the verbatim echo of an add or delete intent erases the
optimistic step that preceded it. -/
theorem handle_after_optimistic (op : SyncOp) (hop : op.isEdit = false) (m : UsersMap) :
    handleMessage (outboundOf op) (applyOptimistic op m)
      = handleMessage (outboundOf op) m := by
  cases op with
  | addEntity name age email =>
    exact UsersMap.insert_insert_self m name (UserData.toObj ⟨jsTrim name, age, jsTrim email⟩)
  | editEntity key f v => simp [SyncOp.isEdit] at hop
  | deleteEntity key =>
    exact UsersMap.remove_remove_self m key

/-- C1, counterexample: a single editEntity call whose echoed confirmation is
reconciled leaves a different mapping depending on whether the optimistic step
ran, because the echoed edit message carries field/value and no row_changes,
and handleMessage ignores such a message. -/
theorem c1_optimistic_confirm_counterexample :
    runWithOptimistic [SyncOp.editEntity "a" UserField.age (JsValue.num 1)]
        UsersMap.empty "a"
      ≠ runConfirmOnly [SyncOp.editEntity "a" UserField.age (JsValue.num 1)]
        UsersMap.empty "a" := by
  decide

/-- C1, amended: for every sequence of addEntity and deleteEntity calls, each
followed by the verbatim echo of the message that was sent, the resulting
mapping is the same whether or not the optimistic step was applied; for
editEntity the two runs can differ, since the echoed edit carries the legacy
field/value pair which the reader ignores. -/
theorem c1_optimistic_confirm (ops : List SyncOp)
    (h : ∀ op ∈ ops, op.isEdit = false) (m : UsersMap) (k : String) :
    runWithOptimistic ops m k = runConfirmOnly ops m k := by
  induction ops generalizing m with
  | nil => rfl
  | cons op rest ih =>
    have h1 : op.isEdit = false := h op (by simp)
    have h2 : ∀ o ∈ rest, o.isEdit = false := fun o ho => h o (by simp [ho])
    show runWithOptimistic rest (handleMessage (outboundOf op) (applyOptimistic op m)) k
      = runConfirmOnly rest (handleMessage (outboundOf op) m) k
    rw [handle_after_optimistic op h1 m]
    exact ih h2 _

theorem c1_optimistic_confirm_witness :
    (∀ op ∈ [SyncOp.addEntity "Mendy" 30 "mendy@example.com",
             SyncOp.deleteEntity "Mendy"], op.isEdit = false)
    ∧ runWithOptimistic [SyncOp.addEntity "Mendy" 30 "mendy@example.com",
        SyncOp.deleteEntity "Mendy"] UsersMap.empty "Mendy"
      = runConfirmOnly [SyncOp.addEntity "Mendy" 30 "mendy@example.com",
        SyncOp.deleteEntity "Mendy"] UsersMap.empty "Mendy" :=
  ⟨by decide, c1_optimistic_confirm _ (by decide) UsersMap.empty "Mendy"⟩

/-- The entity of the worked reconciliation example, as produced by an add. -/
def mendyObj : UserObj :=
  ⟨some (.str "Mendy"), some (.num 30), some (.str "m@x.com"), some (.bool false)⟩

/-- C5, counterexample: an inbound edit message in the legacy single
field/value form (age to 31, no row_changes) leaves the entry at its key
unchanged, so the reader does not accept that wire form. -/
theorem c5_legacy_edit_counterexample :
    handleMessage ⟨.edit, "Mendy", none, none, some .age, some (.num 31)⟩
        (UsersMap.empty.insert "Mendy" mendyObj) "Mendy" = some mendyObj
    ∧ mendyObj.age ≠ some (JsValue.num 31) := by
  decide

/-- C5, amended: the inbound reader accepts only the batched row_changes edit
form, whose field updates it merges into the entry at the message's key; an
edit message carrying only the legacy field/value pair leaves the mapping
completely unchanged. -/
theorem c5_edit_wire_forms (key : String) (d d2 : Option UserData) (rc : RowChanges)
    (f f2 : Option UserField) (v v2 : Option JsValue) (m : UsersMap) :
    handleMessage ⟨.edit, key, d, some rc, f, v⟩ m
      = m.insert key ((m.getObj key).mergeRow rc)
    ∧ handleMessage ⟨.edit, key, d2, none, f2, v2⟩ m = m :=
  ⟨rfl, rfl⟩

/-- C7: reconciling an edit whose row_changes is age to 31 against the entry
holding Mendy aged 30 yields Mendy aged 31 with name and email untouched, and
leaves the entry at every other key unchanged. -/
theorem c7_edit_frame (m : UsersMap) (h : m "Mendy" = some mendyObj) :
    handleMessage ⟨.edit, "Mendy", none, some ⟨none, some (.num 31), none, none⟩,
        none, none⟩ m "Mendy"
      = some ⟨some (.str "Mendy"), some (.num 31), some (.str "m@x.com"),
          some (.bool false)⟩
    ∧ ∀ k, k ≠ "Mendy" →
        handleMessage ⟨.edit, "Mendy", none, some ⟨none, some (.num 31), none, none⟩,
          none, none⟩ m k = m k := by
  constructor
  · show (m.insert "Mendy" ((m.getObj "Mendy").mergeRow _)) "Mendy" = _
    unfold UsersMap.insert UsersMap.getObj
    rw [h]
    simp [UserObj.mergeRow, overrideField, mendyObj]
  · intro k hk
    show (m.insert "Mendy" _) k = m k
    unfold UsersMap.insert
    simp [hk]

theorem c7_edit_frame_witness :
    ((UsersMap.empty.insert "Bob" UserObj.empty).insert "Mendy" mendyObj) "Mendy"
      = some mendyObj
    ∧ handleMessage ⟨.edit, "Mendy", none, some ⟨none, some (.num 31), none, none⟩,
        none, none⟩
        ((UsersMap.empty.insert "Bob" UserObj.empty).insert "Mendy" mendyObj) "Mendy"
      = some ⟨some (.str "Mendy"), some (.num 31), some (.str "m@x.com"),
          some (.bool false)⟩
    ∧ handleMessage ⟨.edit, "Mendy", none, some ⟨none, some (.num 31), none, none⟩,
        none, none⟩
        ((UsersMap.empty.insert "Bob" UserObj.empty).insert "Mendy" mendyObj) "Bob"
      = ((UsersMap.empty.insert "Bob" UserObj.empty).insert "Mendy" mendyObj) "Bob" :=
  ⟨by decide, (c7_edit_frame _ (by decide)).1,
    (c7_edit_frame _ (by decide)).2 "Bob" (by decide)⟩

/-- C10: an inbound add message with no data field, and an inbound edit
message with no row_changes field, each leave the local entity mapping
completely unchanged. -/
theorem c10_missing_payload (key : String) (rc : Option RowChanges)
    (d : Option UserData) (f f2 : Option UserField) (v v2 : Option JsValue)
    (m : UsersMap) :
    handleMessage ⟨.add, key, none, rc, f, v⟩ m = m
    ∧ handleMessage ⟨.edit, key, d, none, f2, v2⟩ m = m :=
  ⟨rfl, rfl⟩

/-! Fixed points of dropWhile, used to characterize JS String.trim. -/

theorem dropWhile_eq_self_of_head (p : Char → Bool) (l : List Char)
    (h : ∀ c, l.head? = some c → p c = false) : l.dropWhile p = l := by
  cases l with
  | nil => rfl
  | cons c t => rw [List.dropWhile_cons, h c rfl]; simp

theorem head_not_of_dropWhile_eq_self (p : Char → Bool) (l : List Char)
    (h : l.dropWhile p = l) : ∀ c, l.head? = some c → p c = false := by
  intro c hc
  cases l with
  | nil => simp at hc
  | cons a t =>
    have hac : a = c := by simpa using hc
    by_contra hp
    have hp2 : p a = true := by rw [hac]; simpa using hp
    rw [List.dropWhile_cons, hp2] at h
    simp only [if_true] at h
    have hlen := congrArg List.length h
    have hle := (@List.dropWhile_suffix Char t p).length_le
    simp at hlen
    omega

theorem trimList_eq_self_iff (p : Char → Bool) (l : List Char) :
    ((l.dropWhile p).reverse.dropWhile p).reverse = l
      ↔ ((∀ c, l.head? = some c → p c = false)
         ∧ (∀ c, l.getLast? = some c → p c = false)) := by
  constructor
  · intro h
    have hlen : (((l.dropWhile p).reverse.dropWhile p).reverse).length = l.length :=
      congrArg List.length h
    rw [List.length_reverse] at hlen
    have h2 : ((l.dropWhile p).reverse.dropWhile p).length ≤ (l.dropWhile p).length := by
      have h3 := (@List.dropWhile_suffix Char (l.dropWhile p).reverse p).length_le
      rwa [List.length_reverse] at h3
    have h1 : (l.dropWhile p).length ≤ l.length :=
      (@List.dropWhile_suffix Char l p).length_le
    have e1 : l.dropWhile p = l :=
      (@List.dropWhile_suffix Char l p).eq_of_length (by omega)
    have e2 : (l.dropWhile p).reverse.dropWhile p = (l.dropWhile p).reverse := by
      apply (@List.dropWhile_suffix Char (l.dropWhile p).reverse p).eq_of_length
      rw [List.length_reverse]
      omega
    refine ⟨head_not_of_dropWhile_eq_self p l e1, ?_⟩
    intro c hc
    apply head_not_of_dropWhile_eq_self p (l.dropWhile p).reverse e2 c
    rw [List.head?_reverse, e1]
    exact hc
  · rintro ⟨h1, h2⟩
    have e1 : l.dropWhile p = l := dropWhile_eq_self_of_head p l h1
    have e2 : (l.dropWhile p).reverse.dropWhile p = (l.dropWhile p).reverse := by
      apply dropWhile_eq_self_of_head
      intro c hc
      rw [List.head?_reverse, e1] at hc
      exact h2 c hc
    rw [e2, List.reverse_reverse, e1]

theorem hasEdgeWhitespace_eq_false_iff (s : String) :
    hasEdgeWhitespace s = false
      ↔ ((∀ c, s.data.head? = some c → isJsWhitespace c = false)
         ∧ (∀ c, s.data.getLast? = some c → isJsWhitespace c = false)) := by
  unfold hasEdgeWhitespace
  cases hh : s.data.head? <;> cases hl : s.data.getLast? <;> simp [hh, hl]

/-- A string is fixed by JS String.trim exactly when it has no leading and no
trailing JS whitespace character. -/
theorem jsTrim_eq_self_iff (s : String) :
    jsTrim s = s ↔ hasEdgeWhitespace s = false := by
  obtain ⟨l⟩ := s
  rw [hasEdgeWhitespace_eq_false_iff]
  unfold jsTrim
  rw [String.ext_iff]
  exact trimList_eq_self_iff isJsWhitespace l

/-- C9: addUser keys the optimistic entry by the untrimmed name argument while
the stored record and the outbound message carry the trimmed name and email;
the stored record's name field equals the key exactly when the name argument
has no leading or trailing whitespace. -/
theorem c9_addUser_trim (name : String) (age : Int) (email : String) (m : UsersMap) :
    applyOptimistic (.addEntity name age email) m name
      = some ⟨some (.str (jsTrim name)), some (.num age), some (.str (jsTrim email)),
          some (.bool false)⟩
    ∧ (outboundOf (.addEntity name age email)).key = name
    ∧ (outboundOf (.addEntity name age email)).data = some ⟨jsTrim name, age, jsTrim email⟩
    ∧ (some (JsValue.str (jsTrim name)) = some (JsValue.str name)
        ↔ hasEdgeWhitespace name = false) := by
  refine ⟨?_, rfl, rfl, ?_⟩
  · show (m.insert name _) name = _
    unfold UsersMap.insert
    simp [UserData.toObj]
  · simp only [Option.some.injEq, JsValue.str.injEq]
    exact jsTrim_eq_self_iff name

/-! Connection manager claims. -/

/-- A live manager: open socket, registered callback, no attempts used. -/
def wsLive : WSManager := ⟨true, true, "c", 0, 0, 5, true, []⟩

/-- A manager whose socket is gone (closed or never connected). -/
def wsClosed : WSManager := ⟨false, false, "c", 0, 0, 5, true, []⟩

/-- A manager that has used up its five reconnection attempts. -/
def wsExhausted : WSManager := ⟨true, true, "c", 0, 5, 5, true, []⟩

/-- A minimal delete message used as a concrete payload. -/
def delMsg : AppMessage := ⟨.delete, "k", none, none, none, none⟩

/-- C2, counterexample: after disconnect() on a live manager the message
callback is still registered, and the close event that the close() call
triggers still schedules a reconnection timer, so disconnect neither clears
the callback nor suppresses reconnection. -/
theorem c2_disconnect_counterexample :
    (WSManager.disconnect ⟨true, true, "c", 0, 0, 5, true, []⟩).callbackSet = true
    ∧ (WSManager.oncloseEvent
        (WSManager.disconnect ⟨true, true, "c", 0, 0, 5, true, []⟩)).pendingReconnectDelays
      = [2000] := by
  decide

/-- C2, amended: disconnect() is idempotent and closes (nulls) the transport
if present, but it leaves the registered message callback in place and does
not prevent the ensuing transport close event from scheduling a reconnection
attempt while attempts remain. -/
theorem c2_disconnect (s : WSManager)
    (h : s.reconnectAttempts < s.maxReconnectAttempts) :
    s.disconnect.disconnect = s.disconnect
    ∧ s.disconnect.socketPresent = false
    ∧ s.disconnect.callbackSet = s.callbackSet
    ∧ s.disconnect.oncloseEvent.pendingReconnectDelays
        = s.pendingReconnectDelays ++ [2000 * (s.reconnectAttempts + 1)] := by
  unfold WSManager.oncloseEvent WSManager.attemptReconnect WSManager.disconnect
  by_cases hs : s.socketPresent <;> simp [hs, h]

theorem c2_disconnect_witness :
    wsLive.reconnectAttempts < wsLive.maxReconnectAttempts
    ∧ (wsLive.disconnect.disconnect = wsLive.disconnect
       ∧ wsLive.disconnect.socketPresent = false
       ∧ wsLive.disconnect.callbackSet = wsLive.callbackSet
       ∧ wsLive.disconnect.oncloseEvent.pendingReconnectDelays
           = wsLive.pendingReconnectDelays ++ [2000 * (wsLive.reconnectAttempts + 1)]) :=
  ⟨by decide, c2_disconnect wsLive (by decide)⟩

/-- C3: when the socket exists and is OPEN, send stamps the message with
clientVersion, clientId and the current time and transmits it; otherwise the
call transmits nothing, queues nothing, leaves the manager unchanged, and
logs the delivery failure. -/
theorem c3_send (s : WSManager) (message : AppMessage) (now : String) :
    ((s.socketPresent && s.socketOpen) = true →
        s.send message now
          = ⟨s, some ⟨message, s.clientVersion, s.clientId, now⟩, false⟩)
    ∧ ((s.socketPresent && s.socketOpen) = false →
        s.send message now = ⟨s, none, true⟩) := by
  unfold WSManager.send
  constructor <;> intro h <;> simp [h]

theorem c3_send_witness :
    wsLive.send delMsg "t" = ⟨wsLive, some ⟨delMsg, 0, "c", "t"⟩, false⟩
    ∧ wsClosed.send delMsg "t" = ⟨wsClosed, none, true⟩ :=
  ⟨(c3_send wsLive delMsg "t").1 (by decide),
   (c3_send wsClosed delMsg "t").2 (by decide)⟩

/-- A close event on a manager with its attempts exhausted only marks the
socket closed. -/
theorem oncloseEvent_exhausted (s : WSManager)
    (h : s.maxReconnectAttempts ≤ s.reconnectAttempts) :
    s.oncloseEvent = { s with socketOpen := false } := by
  have hn : ¬ s.reconnectAttempts < s.maxReconnectAttempts := by omega
  simp [WSManager.oncloseEvent, WSManager.attemptReconnect, hn]

theorem oncloseEvent_iterate_exhausted (s : WSManager)
    (h : s.maxReconnectAttempts ≤ s.reconnectAttempts) (n : Nat) :
    (WSManager.oncloseEvent^[n] s).pendingReconnectDelays = s.pendingReconnectDelays
    ∧ (WSManager.oncloseEvent^[n] s).reconnectAttempts = s.reconnectAttempts
    ∧ (WSManager.oncloseEvent^[n] s).maxReconnectAttempts = s.maxReconnectAttempts := by
  induction n with
  | zero => exact ⟨rfl, rfl, rfl⟩
  | succ k ih =>
    obtain ⟨ih1, ih2, ih3⟩ := ih
    rw [Function.iterate_succ_apply']
    rw [oncloseEvent_exhausted _ (by rw [ih2, ih3]; exact h)]
    exact ⟨ih1, ih2, ih3⟩

/-- C4: a close or failure event with attempts remaining schedules exactly one
reconnection timer delayed by 2000 times the incremented attempt counter; a
successful open resets the counter to zero; and once the maximum number of
attempts is reached, no close event ever schedules another timer or changes
the counter, so the connection stays down absent a manual connect(). -/
theorem c4_reconnect_backoff (s : WSManager) :
    (s.reconnectAttempts < s.maxReconnectAttempts →
        s.oncloseEvent.pendingReconnectDelays
          = s.pendingReconnectDelays ++ [2000 * (s.reconnectAttempts + 1)]
        ∧ s.oncloseEvent.reconnectAttempts = s.reconnectAttempts + 1)
    ∧ s.onopen.reconnectAttempts = 0
    ∧ (s.maxReconnectAttempts ≤ s.reconnectAttempts →
        ∀ n, (WSManager.oncloseEvent^[n] s).pendingReconnectDelays
              = s.pendingReconnectDelays
          ∧ (WSManager.oncloseEvent^[n] s).reconnectAttempts = s.reconnectAttempts) := by
  refine ⟨?_, rfl, ?_⟩
  · intro h
    constructor <;> simp [WSManager.oncloseEvent, WSManager.attemptReconnect, h]
  · intro h n
    exact ⟨(oncloseEvent_iterate_exhausted s h n).1,
           (oncloseEvent_iterate_exhausted s h n).2.1⟩

theorem c4_reconnect_backoff_witness :
    (wsLive.oncloseEvent.pendingReconnectDelays = [2000]
     ∧ wsLive.oncloseEvent.reconnectAttempts = 1)
    ∧ wsLive.onopen.reconnectAttempts = 0
    ∧ ((WSManager.oncloseEvent^[2] wsExhausted).pendingReconnectDelays = []
       ∧ (WSManager.oncloseEvent^[2] wsExhausted).reconnectAttempts = 5) :=
  ⟨(c4_reconnect_backoff wsLive).1 (by decide),
   (c4_reconnect_backoff wsLive).2.1,
   (c4_reconnect_backoff wsExhausted).2.2 (by decide) 2⟩

/-- C6, counterexample: clientVersion is assigned each inbound message's
version unconditionally, so an inbound message carrying a smaller version
lowers it below a value it previously held. -/
theorem c6_version_counterexample :
    ((WSManager.init "c").onmessage ⟨delMsg, 5, "x", "t"⟩).clientVersion = 5
    ∧ (((WSManager.init "c").onmessage ⟨delMsg, 5, "x", "t"⟩).onmessage
        ⟨delMsg, 3, "x", "t"⟩).clientVersion = 3
    ∧ ¬ (5 : Int) ≤ 3 := by
  refine ⟨rfl, rfl, by decide⟩

/-- The version counter never decreases along an inbound stream whose
versions are non-decreasing from the current value. -/
theorem processInbound_mono (s : WSManager) (msgs : List WireMessage)
    (h : List.Chain' (· ≤ ·) (s.clientVersion :: msgs.map WireMessage.version)) :
    s.clientVersion ≤ (s.processInbound msgs).clientVersion := by
  induction msgs generalizing s with
  | nil => exact le_refl _
  | cons m ms ih =>
    rw [List.map_cons, List.chain'_cons] at h
    exact le_trans h.1 (ih (s.onmessage m) h.2)

/-- C6, amended: clientVersion is updated only by the inbound message handler,
which assigns it the message's version verbatim (every other operation leaves
it unchanged); consequently it can decrease, and it is non-decreasing exactly
when the inbound version sequence is non-decreasing from the current value. -/
theorem c6_version_tracking (s : WSManager) (msg : WireMessage)
    (msgs : List WireMessage) :
    (s.onmessage msg).clientVersion = msg.version
    ∧ s.connect.clientVersion = s.clientVersion
    ∧ s.onopen.clientVersion = s.clientVersion
    ∧ s.attemptReconnect.clientVersion = s.clientVersion
    ∧ s.oncloseEvent.clientVersion = s.clientVersion
    ∧ s.disconnect.clientVersion = s.clientVersion
    ∧ (∀ message now, (s.send message now).state.clientVersion = s.clientVersion)
    ∧ (List.Chain' (· ≤ ·) (s.clientVersion :: msgs.map WireMessage.version) →
        s.clientVersion ≤ (s.processInbound msgs).clientVersion) := by
  refine ⟨rfl, rfl, rfl, ?_, ?_, ?_, ?_, processInbound_mono s msgs⟩
  · unfold WSManager.attemptReconnect
    by_cases hr : s.reconnectAttempts < s.maxReconnectAttempts <;> simp [hr]
  · unfold WSManager.oncloseEvent WSManager.attemptReconnect
    by_cases hr : s.reconnectAttempts < s.maxReconnectAttempts <;> simp [hr]
  · unfold WSManager.disconnect
    by_cases hs : s.socketPresent <;> simp [hs]
  · intro message now
    unfold WSManager.send
    by_cases hs : s.socketPresent && s.socketOpen <;> simp [hs]

theorem c6_version_tracking_witness :
    ((WSManager.init "c").onmessage ⟨delMsg, 7, "x", "t"⟩).clientVersion = 7
    ∧ ((WSManager.init "c").send delMsg "t").state.clientVersion
        = (WSManager.init "c").clientVersion
    ∧ List.Chain' (· ≤ ·) ((WSManager.init "c").clientVersion
        :: ([⟨delMsg, 1, "x", "t"⟩, ⟨delMsg, 4, "x", "t"⟩] : List WireMessage).map
             WireMessage.version)
    ∧ (WSManager.init "c").clientVersion
        ≤ ((WSManager.init "c").processInbound
            [⟨delMsg, 1, "x", "t"⟩, ⟨delMsg, 4, "x", "t"⟩]).clientVersion :=
  ⟨(c6_version_tracking (WSManager.init "c") ⟨delMsg, 7, "x", "t"⟩ []).1,
   (c6_version_tracking (WSManager.init "c") ⟨delMsg, 7, "x", "t"⟩ []).2.2.2.2.2.2.1
     delMsg "t",
   by norm_num [List.chain'_cons, WSManager.init, List.chain'_singleton],
   (c6_version_tracking (WSManager.init "c") ⟨delMsg, 7, "x", "t"⟩
       [⟨delMsg, 1, "x", "t"⟩, ⟨delMsg, 4, "x", "t"⟩]).2.2.2.2.2.2.2
     (by norm_num [List.chain'_cons, WSManager.init, List.chain'_singleton])⟩

/-! The indexed local cache claim. -/

theorem Storage.update_apply_same {α : Type} (s : Storage α) (k : String)
    (v : Option (Stored α)) : s.update k v k = v := by
  simp [Storage.update]

theorem Storage.update_apply_ne {α : Type} (s : Storage α) (k q : String)
    (v : Option (Stored α)) (h : q ≠ k) : s.update k v q = s q := by
  simp [Storage.update, h]

namespace LocalStorageWithIndex

variable {α : Type}

theorem getIndex_update_of_ne (pfx : String) (s : Storage α) (k : String)
    (v : Option (Stored α)) (h : k ≠ indexKey pfx) :
    getIndex pfx (s.update k v) = getIndex pfx s := by
  unfold getIndex
  rw [Storage.update_apply_ne s k (indexKey pfx) v (Ne.symm h)]

theorem getIndex_setIndex (pfx : String) (l : List String) (s : Storage α) :
    getIndex pfx (setIndex pfx l s) = l := by
  unfold getIndex setIndex
  rw [Storage.update_apply_same]

theorem setIndex_apply_ne (pfx : String) (l : List String) (s : Storage α)
    (q : String) (h : q ≠ indexKey pfx) : setIndex pfx l s q = s q := by
  unfold setIndex
  exact Storage.update_apply_ne s (indexKey pfx) q _ h

theorem jsSetOfList_aux (l acc : List String) (h : (acc ++ l).Nodup) :
    l.foldl (fun a x => if x ∈ a then a else a ++ [x]) acc = acc ++ l := by
  induction l generalizing acc with
  | nil => simp
  | cons x t ih =>
    have hx : x ∉ acc := by
      intro hxa
      exact (List.disjoint_of_nodup_append h) hxa (by simp)
    show List.foldl _ (if x ∈ acc then acc else acc ++ [x]) t = _
    rw [if_neg hx]
    have h2 : ((acc ++ [x]) ++ t).Nodup := by
      rw [List.append_assoc, List.singleton_append]
      exact h
    rw [ih (acc ++ [x]) h2, List.append_assoc, List.singleton_append]

theorem jsSetOfList_of_nodup (l : List String) (h : l.Nodup) : jsSetOfList l = l := by
  have h2 := jsSetOfList_aux l [] (by simpa using h)
  simpa [jsSetOfList] using h2

theorem fullKey_inj (pfx : String) {a b : String} (h : fullKey pfx a = fullKey pfx b) :
    a = b := by
  unfold fullKey at h
  have h2 := congrArg String.data h
  simp only [String.data_append] at h2
  exact String.ext (List.append_cancel_left h2)

/-- For the prefix the code instantiates, no composite key collides with the
index key (they start with different characters). -/
theorem fullKey_users_ne_indexKey (id : String) :
    fullKey "users" id ≠ indexKey "users" := by
  intro h
  have h3 : (fullKey "users" id).data.head? = some 'u' := by
    obtain ⟨l⟩ := id
    rfl
  have h2 : some 'u' = (indexKey "users").data.head? := by
    rw [← h3, h]
  exact absurd h2 (by decide)

/-- Evaluation lemmas for the getAllItems loop body. -/
theorem collectStep_skip {s : Storage α} {k : String}
    (items : List (String × α)) (h : ∀ v, s k ≠ some (.val v)) :
    collectStep s items k = items := by
  unfold collectStep
  cases hk : s k with
  | none => rfl
  | some st =>
    cases st with
    | arr l => rfl
    | val v => exact absurd hk (h v)

theorem collectStep_val {s : Storage α} {k : String} {v : α}
    (items : List (String × α)) (h : s k = some (.val v)) :
    collectStep s items k = items ++ [(k, v)] := by
  unfold collectStep
  rw [h]

/-- The entries getAllItems would collect from a given key list. -/
def itemsOf (s : Storage α) (keys : List String) : List (String × α) :=
  keys.filterMap (fun k =>
    match s k with
    | some (.val v) => some (k, v)
    | _ => none)

theorem itemsOf_cons_val (s : Storage α) (k : String) (v : α) (rest : List String)
    (h : s k = some (.val v)) :
    itemsOf s (k :: rest) = (k, v) :: itemsOf s rest := by
  unfold itemsOf
  rw [List.filterMap_cons, h]

theorem itemsOf_cons_skip (s : Storage α) (k : String) (rest : List String)
    (h : ∀ v, s k ≠ some (.val v)) :
    itemsOf s (k :: rest) = itemsOf s rest := by
  unfold itemsOf
  rw [List.filterMap_cons]
  cases hk : s k with
  | none => rfl
  | some st =>
    cases st with
    | arr l => rfl
    | val v => exact absurd hk (h v)

theorem foldl_collect_eq (s : Storage α) (keys : List String)
    (acc : List (String × α)) :
    keys.foldl (collectStep s) acc = acc ++ itemsOf s keys := by
  induction keys generalizing acc with
  | nil => simp [itemsOf]
  | cons k rest ih =>
    show List.foldl (collectStep s) (collectStep s acc k) rest = _
    cases hk : s k with
    | none =>
      rw [collectStep_skip acc (by simp [hk]), ih,
          itemsOf_cons_skip s k rest (by simp [hk])]
    | some st =>
      cases st with
      | arr l =>
        rw [collectStep_skip acc (by simp [hk]), ih,
            itemsOf_cons_skip s k rest (by simp [hk])]
      | val v =>
        rw [collectStep_val acc hk, ih, itemsOf_cons_val s k v rest hk,
            List.append_assoc, List.singleton_append]

theorem getAllItems_eq (pfx : String) (s : Storage α) :
    getAllItems pfx s = itemsOf s (getIndex pfx s) := by
  unfold getAllItems
  rw [foldl_collect_eq]
  simp

theorem lookupAL_itemsOf_of_slot_none (s : Storage α) (keys : List String)
    (k0 : String) (h : s k0 = none) : lookupAL (itemsOf s keys) k0 = none := by
  induction keys with
  | nil => rfl
  | cons k rest ih =>
    cases hk : s k with
    | none => rw [itemsOf_cons_skip s k rest (by simp [hk])]; exact ih
    | some st =>
      cases st with
      | arr l => rw [itemsOf_cons_skip s k rest (by simp [hk])]; exact ih
      | val v =>
        rw [itemsOf_cons_val s k v rest hk]
        have hne : k0 ≠ k := by
          intro he
          rw [he, hk] at h
          cases h
        unfold lookupAL
        rw [if_neg hne]
        exact ih

theorem lookupAL_itemsOf (s : Storage α) (keys : List String) (hnd : keys.Nodup)
    (k0 : String) :
    lookupAL (itemsOf s keys) k0
      = if k0 ∈ keys then
          (match s k0 with
           | some (.val v) => some v
           | _ => none)
        else none := by
  induction keys with
  | nil => simp [itemsOf, lookupAL]
  | cons k rest ih =>
    rw [List.nodup_cons] at hnd
    obtain ⟨hk_not, hrest⟩ := hnd
    by_cases he : k0 = k
    · subst he
      cases hk : s k0 with
      | none =>
        rw [itemsOf_cons_skip s k0 rest (by simp [hk]),
            lookupAL_itemsOf_of_slot_none s rest k0 hk, if_pos (by simp)]
      | some st =>
        cases st with
        | arr l =>
          rw [itemsOf_cons_skip s k0 rest (by simp [hk]), ih hrest,
              if_neg hk_not, if_pos (by simp)]
        | val v =>
          rw [itemsOf_cons_val s k0 v rest hk, if_pos (by simp)]
          unfold lookupAL
          rw [if_pos rfl]
    · cases hk : s k with
      | none =>
        rw [itemsOf_cons_skip s k rest (by simp [hk]), ih hrest]
        simp [List.mem_cons, he]
      | some st =>
        cases st with
        | arr l =>
          rw [itemsOf_cons_skip s k rest (by simp [hk]), ih hrest]
          simp [List.mem_cons, he]
        | val v =>
          rw [itemsOf_cons_val s k v rest hk]
          unfold lookupAL
          rw [if_neg he, ih hrest]
          simp [List.mem_cons, he]

/-- Pointwise update of the reference mapping from ids to live values. -/
def updFun (f : String → Option α) (id : String) (w : Option α) :
    String → Option α :=
  fun j => if j = id then w else f j

/-- The correspondence maintained between a storage built through the cache
API and the reference mapping of live values: each id's slot holds exactly
its live value, the index holds exactly the composite keys of live ids, and
the index has no duplicates. -/
structure CacheInv (pfx : String) (s : Storage α) (f : String → Option α) : Prop where
  slot : ∀ id, s (fullKey pfx id) = Option.map Stored.val (f id)
  mem : ∀ id, fullKey pfx id ∈ getIndex pfx s ↔ (f id).isSome = true
  nodup : (getIndex pfx s).Nodup

theorem cacheInv_empty (pfx : String) :
    @CacheInv α pfx (Storage.empty α) (fun _ => none) := by
  refine ⟨fun id => rfl, fun id => ?_, ?_⟩ <;> simp [getIndex, Storage.empty]

theorem setItem_eq (pfx id : String) (v : α) (s : Storage α)
    (hp : fullKey pfx id ≠ indexKey pfx) (hnd : (getIndex pfx s).Nodup) :
    setItem pfx id v s
      = setIndex pfx
          (if fullKey pfx id ∈ getIndex pfx s then getIndex pfx s
           else getIndex pfx s ++ [fullKey pfx id])
          (s.update (fullKey pfx id) (some (.val v))) := by
  simp only [setItem]
  rw [getIndex_update_of_ne pfx s _ _ hp, jsSetOfList_of_nodup _ hnd]

theorem removeItem_eq (pfx id : String) (s : Storage α)
    (hp : fullKey pfx id ≠ indexKey pfx) (hnd : (getIndex pfx s).Nodup) :
    removeItem pfx id s
      = setIndex pfx ((getIndex pfx s).erase (fullKey pfx id))
          (s.update (fullKey pfx id) none) := by
  simp only [removeItem]
  rw [getIndex_update_of_ne pfx s _ _ hp, jsSetOfList_of_nodup _ hnd]

theorem cacheInv_setItem (pfx : String) (hp : ∀ j, fullKey pfx j ≠ indexKey pfx)
    {s : Storage α} {f : String → Option α} (inv : CacheInv pfx s f)
    (id : String) (v : α) :
    CacheInv pfx (setItem pfx id v s) (updFun f id (some v)) := by
  rw [setItem_eq pfx id v s (hp id) inv.nodup]
  refine ⟨?_, ?_, ?_⟩
  · intro id2
    rw [setIndex_apply_ne pfx _ _ _ (hp id2)]
    by_cases hid : id2 = id
    · subst hid
      rw [Storage.update_apply_same]
      simp [updFun]
    · have hne : fullKey pfx id2 ≠ fullKey pfx id :=
        fun he => hid (fullKey_inj pfx he)
      rw [Storage.update_apply_ne _ _ _ _ hne, inv.slot id2]
      simp [updFun, hid]
  · intro id2
    rw [getIndex_setIndex]
    by_cases hid : id2 = id
    · subst hid
      by_cases hin : fullKey pfx id2 ∈ getIndex pfx s <;> simp [hin, updFun]
    · have hne : fullKey pfx id2 ≠ fullKey pfx id :=
        fun he => hid (fullKey_inj pfx he)
      have hme : (updFun f id (some v) id2) = f id2 := by simp [updFun, hid]
      rw [hme]
      by_cases hin : fullKey pfx id ∈ getIndex pfx s
      · rw [if_pos hin]
        exact inv.mem id2
      · rw [if_neg hin, List.mem_append]
        simp only [List.mem_singleton, hne, or_false]
        exact inv.mem id2
  · rw [getIndex_setIndex]
    by_cases hin : fullKey pfx id ∈ getIndex pfx s
    · rw [if_pos hin]
      exact inv.nodup
    · rw [if_neg hin, List.nodup_append]
      exact ⟨inv.nodup, List.nodup_singleton _, by simpa using hin⟩

theorem cacheInv_removeItem (pfx : String) (hp : ∀ j, fullKey pfx j ≠ indexKey pfx)
    {s : Storage α} {f : String → Option α} (inv : CacheInv pfx s f)
    (id : String) :
    CacheInv pfx (removeItem pfx id s) (updFun f id none) := by
  rw [removeItem_eq pfx id s (hp id) inv.nodup]
  refine ⟨?_, ?_, ?_⟩
  · intro id2
    rw [setIndex_apply_ne pfx _ _ _ (hp id2)]
    by_cases hid : id2 = id
    · subst hid
      rw [Storage.update_apply_same]
      simp [updFun]
    · have hne : fullKey pfx id2 ≠ fullKey pfx id :=
        fun he => hid (fullKey_inj pfx he)
      rw [Storage.update_apply_ne _ _ _ _ hne, inv.slot id2]
      simp [updFun, hid]
  · intro id2
    rw [getIndex_setIndex, inv.nodup.mem_erase_iff]
    by_cases hid : id2 = id
    · subst hid
      simp [updFun]
    · have hne : fullKey pfx id2 ≠ fullKey pfx id :=
        fun he => hid (fullKey_inj pfx he)
      rw [inv.mem id2]
      simp [updFun, hid, hne]
  · rw [getIndex_setIndex]
    exact inv.nodup.erase _

/-- The reference mapping after a sequence of cache calls. -/
def applyOps (ops : List (CacheOp α)) (f : String → Option α) :
    String → Option α :=
  ops.foldl (fun g op =>
    match op with
    | .set id v => updFun g id (some v)
    | .remove id => updFun g id none) f

theorem cacheInv_runCache (pfx : String) (hp : ∀ j, fullKey pfx j ≠ indexKey pfx)
    (ops : List (CacheOp α)) {s : Storage α} {f : String → Option α}
    (inv : CacheInv pfx s f) :
    CacheInv pfx (runCache pfx ops s) (applyOps ops f) := by
  induction ops generalizing s f with
  | nil => exact inv
  | cons op rest ih =>
    cases op with
    | set id v => exact ih (cacheInv_setItem pfx hp inv id v)
    | remove id => exact ih (cacheInv_removeItem pfx hp inv id)

theorem applyOps_apply (ops : List (CacheOp α)) (f : String → Option α)
    (id : String) :
    applyOps ops f id
      = ops.foldl (fun acc op =>
          match op with
          | .set j v => if j = id then some v else acc
          | .remove j => if j = id then none else acc) (f id) := by
  induction ops generalizing f with
  | nil => rfl
  | cons op rest ih =>
    cases op with
    | set j v =>
      show applyOps rest (updFun f j (some v)) id = _
      rw [ih]
      by_cases hj : j = id
      · subst hj
        simp [updFun]
      · have hij : id ≠ j := fun h2 => hj h2.symm
        simp [updFun, hij, hj]
    | remove j =>
      show applyOps rest (updFun f j none) id = _
      rw [ih]
      by_cases hj : j = id
      · subst hj
        simp [updFun]
      · have hij : id ≠ j := fun h2 => hj h2.symm
        simp [updFun, hij, hj]

theorem lastVal_eq_applyOps (ops : List (CacheOp α)) (id : String) :
    lastVal ops id = applyOps ops (fun _ => none) id := by
  rw [applyOps_apply]
  rfl

/-- C8: starting from empty storage, after any sequence of setItem/removeItem
calls getAllItems resolves each composite key to the value most recently set
for its id and not removed since; a composite key is in the index exactly
when its id is live; and on any storage at all, an indexed key whose
underlying slot has been removed out-of-band is silently skipped. -/
theorem c8_getAllItems (α : Type) (pfx : String)
    (hp : ∀ j, fullKey pfx j ≠ indexKey pfx)
    (ops : List (CacheOp α)) (id : String) :
    lookupAL (getAllItems pfx (runCache pfx ops (Storage.empty α))) (fullKey pfx id)
      = lastVal ops id
    ∧ (fullKey pfx id ∈ getIndex pfx (runCache pfx ops (Storage.empty α))
        ↔ (lastVal ops id).isSome = true)
    ∧ (∀ (s : Storage α) (k : String), k ∈ getIndex pfx s → s k = none →
        lookupAL (getAllItems pfx s) k = none) := by
  have inv := cacheInv_runCache pfx hp ops (cacheInv_empty pfx)
  refine ⟨?_, ?_, ?_⟩
  · rw [getAllItems_eq, lookupAL_itemsOf _ _ inv.nodup, lastVal_eq_applyOps]
    cases hf : applyOps ops (fun _ => none) id with
    | none =>
      have hm : fullKey pfx id ∉ getIndex pfx (runCache pfx ops (Storage.empty α)) := by
        rw [inv.mem id, hf]
        simp
      rw [if_neg hm]
    | some v =>
      have hm : fullKey pfx id ∈ getIndex pfx (runCache pfx ops (Storage.empty α)) := by
        rw [inv.mem id, hf]
        simp
      rw [if_pos hm]
      have hs := inv.slot id
      rw [hf] at hs
      rw [hs]
      rfl
  · rw [lastVal_eq_applyOps]
    exact inv.mem id
  · intro s k _ hnone
    rw [getAllItems_eq]
    exact lookupAL_itemsOf_of_slot_none s _ k hnone

theorem c8_getAllItems_witness :
    lookupAL (getAllItems "users" (runCache "users"
        [CacheOp.set "a" (3 : Int), CacheOp.remove "a", CacheOp.set "a" 7,
         CacheOp.set "b" 9]
        (Storage.empty Int))) (fullKey "users" "a")
      = some 7
    ∧ (fullKey "users" "b" ∈ getIndex "users" (runCache "users"
        [CacheOp.set "a" (3 : Int), CacheOp.remove "a", CacheOp.set "a" 7,
         CacheOp.set "b" 9]
        (Storage.empty Int))
       ↔ (lastVal [CacheOp.set "a" (3 : Int), CacheOp.remove "a", CacheOp.set "a" 7,
            CacheOp.set "b" 9] "b").isSome = true)
    ∧ lookupAL (getAllItems "users"
        (setIndex "users" ["users-x"] (Storage.empty Int))) "users-x" = none :=
  ⟨(c8_getAllItems Int "users" fullKey_users_ne_indexKey
      [CacheOp.set "a" (3 : Int), CacheOp.remove "a", CacheOp.set "a" 7,
       CacheOp.set "b" 9] "a").1,
   (c8_getAllItems Int "users" fullKey_users_ne_indexKey
      [CacheOp.set "a" (3 : Int), CacheOp.remove "a", CacheOp.set "a" 7,
       CacheOp.set "b" 9] "b").2.1,
   (c8_getAllItems Int "users" fullKey_users_ne_indexKey [] "x").2.2
     (setIndex "users" ["users-x"] (Storage.empty Int)) "users-x"
     (by decide) (by decide)⟩

end LocalStorageWithIndex

end Replicache
